import Mathlib

/-!
# Verification of the MovieLens implicit-feedback conversion pipeline

A shallow embedding of `src/convert.py` (`main`), starting from the loaded
ratings table (the output of `implicit_load`): filtering users with fewer than
`MIN_RATINGS` interactions, dense remapping of user/item identifiers, the two
`assert` postconditions, the timestamp sort, the per-user leave-one-out split
with negative sampling, and the writer that produces the three output files.

Conventions of the embedding:
* a row of the table is `(user_id, item_id, timestamp)`; the unused rating
  column is dropped, timestamps are naturals;
* Python exceptions (`list.pop` on an empty list, `set.remove` on a missing
  key, `np.random.choice` on an empty candidate pool, a failing `assert`)
  are explicit `Except` errors;
* the seeded NumPy generator is abstracted as a stream `Nat → Nat` of raw
  draws; a uniform draw below `b` is the stream value reduced modulo `b`,
  and the stream position advances once per requested sample, so consumption
  order is observable;
* a Python `set` is a duplicate-free list; insertion order stands in for the
  (deterministic but implementation-defined) hash-table iteration order, which
  no theorem below depends on;
* `df.sort_values(by='timestamp')` is embedded as an executable comparison
  sort by timestamp.  The source's sort kind leaves the relative order of
  equal timestamps implementation-defined, so no theorem below depends on the
  order of rows with equal timestamps.
-/

set_option maxRecDepth 10000

structure Row where
  user : Nat
  item : Nat
  ts : Nat
deriving DecidableEq

def MIN_RATINGS : Nat := 20

instance {ε α : Type} [DecidableEq ε] [DecidableEq α] : DecidableEq (Except ε α) := fun
  | .ok a, .ok b =>
    if h : a = b then .isTrue (by rw [h]) else .isFalse (fun c => by cases c; exact h rfl)
  | .error a, .error b =>
    if h : a = b then .isTrue (by rw [h]) else .isFalse (fun c => by cases c; exact h rfl)
  | .ok _, .error _ => .isFalse (fun c => by cases c)
  | .error _, .ok _ => .isFalse (fun c => by cases c)

namespace Convert

/-- Position of the first occurrence of `x` in `l`: the image of `x` under a
Python dict built as `{v: index for index, v in enumerate(l)}` when `l` has
no duplicates. -/
def idxOf {α : Type} [DecidableEq α] : List α → α → Nat
  | [], _ => 0
  | y :: ys, x => if y = x then 0 else idxOf ys x + 1

/-- Removal of the first occurrence of `x` from `l`: on a duplicate-free
list this is Python `set.remove` up to element order. -/
def removeFirst {α : Type} [DecidableEq α] : List α → α → List α
  | [], _ => []
  | y :: ys, x => if y = x then ys else y :: removeFirst ys x

/-- Size of the `groupby(USER_COLUMN)` group of user `u` in table `df`
(the `len(x)` of `convert.py` line 62). -/
def countUser (df : List Row) (u : Nat) : Nat :=
  (df.filter fun r => r.user == u).length

/-- `df.groupby(USER_COLUMN).filter(lambda x: len(x) >= MIN_RATINGS)`
(line 62): keep exactly the rows whose user has at least `MIN_RATINGS`
rows in `df`, in original order. -/
def filterMinRatings (df : List Row) : List Row :=
  df.filter fun r => decide (MIN_RATINGS ≤ countUser df r.user)

/-- Helper for `uniqueVals`: distinct values in first-seen order, skipping
values already seen. -/
def uniqueAux {α : Type} [DecidableEq α] (seen : List α) : List α → List α
  | [] => []
  | x :: xs => if x ∈ seen then uniqueAux seen xs else x :: uniqueAux (x :: seen) xs

/-- `Series.unique` (lines 65-66) and Python `set(...)` construction:
the distinct values of a list, in first-seen order. -/
def uniqueVals {α : Type} [DecidableEq α] (l : List α) : List α :=
  uniqueAux [] l

/-- `original_users = df[USER_COLUMN].unique()` (line 65), taken on the
filtered table. -/
def originalUsers (df0 : List Row) : List Nat :=
  uniqueVals ((filterMinRatings df0).map Row.user)

/-- `original_items = df[ITEM_COLUMN].unique()` (line 66). -/
def originalItems (df0 : List Row) : List Nat :=
  uniqueVals ((filterMinRatings df0).map Row.item)

/-- Lines 68-72: `user_map`/`item_map` send a raw id to its position in the
first-seen enumeration, and both columns are rewritten through the maps. -/
def remappedDf (df0 : List Row) : List Row :=
  (filterMinRatings df0).map fun r =>
    ⟨idxOf (originalUsers df0) r.user, idxOf (originalItems df0) r.item, r.ts⟩

/-- `Series.max()` of a column: `none` on an empty column (pandas yields NaN
there, which fails any equality assert). -/
def colMax : List Nat → Option Nat
  | [] => none
  | x :: xs =>
    match colMax xs with
    | none => some x
    | some m => some (max x m)

/-- One of the asserts of lines 74-75: `df[col].max() == len(uniques) - 1`.
The comparison is over `Int` because `len - 1` is `-1` in Python when the
unique list is empty; an empty column (NaN max) fails the assert. -/
def denseAssert (vals : List Nat) (n : Nat) : Bool :=
  match colMax vals with
  | some m => (m : Int) == (n : Int) - 1
  | none => false

/-- `df.sort_values(by='timestamp', inplace=True)` (line 79): sort the
remapped table ascending by timestamp. -/
def sortedDf (df0 : List Row) : List Row :=
  List.insertionSort (fun a b => a.ts ≤ b.ts) (remappedDf df0)

/-- `all_ratings = set(zip(df[USER_COLUMN], df[ITEM_COLUMN]))` (line 80):
the distinct (user index, item index) pairs of the sorted table. -/
def allRatings0 (df0 : List Row) : List (Nat × Nat) :=
  uniqueVals ((sortedDf df0).map fun r => (r.user, r.item))

/-- `user_to_items[u]` after the building pass of lines 81-83: the items of
user `u`'s rows, in sorted-table order. -/
def userItems (df0 : List Row) (u : Nat) : List Nat :=
  ((sortedDf df0).filter fun r => r.user == u).map Row.item

/-- The item `user_to_items[u].pop()` returns (line 103): the last element of
the user's list (`0` as a placeholder when the list is empty, in which case
the pipeline errors instead of using the value). -/
def testItemFor (df0 : List Row) (u : Nat) : Nat :=
  (userItems df0 u).getLast?.getD 0

/-- User `u`'s training history after the pop: all but the last element. -/
def trainHist (df0 : List Row) (u : Nat) : List Nat :=
  (userItems df0 u).dropLast

/-- Lines 105-106 for a post-pop history `hist`:
`sorted(list(all_items - set(hist)))`, the ascending list of candidate
negatives. -/
def poolOf (nItems : Nat) (hist : List Nat) : List Nat :=
  List.insertionSort (· ≤ ·) ((List.range nItems).filter fun i => decide (i ∉ hist))

/-- The candidate pool of user `u` in the run on `df0`. -/
def poolFor (df0 : List Row) (u : Nat) : List Nat :=
  poolOf (originalItems df0).length (trainHist df0 u)

/-- A single uniform draw below `bound` from the abstracted generator stream,
at stream position `k`. -/
def draw (stream : Nat → Nat) (k bound : Nat) : Nat :=
  stream k % bound

/-- `np.random.choice(pool, n)` with `replace=True` (line 109): `n`
independent uniform picks from `pool`, consuming stream positions
`pos, pos+1, ..., pos+n-1` in order. -/
def npChoiceList (pool : List Nat) (n : Nat) (stream : Nat → Nat) (pos : Nat) :
    List Nat :=
  (List.range n).map fun i => pool.getD (draw stream (pos + i) pool.length) 0

/-- The ways the pipeline can raise: the two asserts of lines 74-75, a
`list.pop` on an empty list (line 103), a `set.remove` of a missing pair
(line 105), and `np.random.choice` over an empty candidate pool (line 109). -/
inductive PipeError where
  | assertUser : PipeError
  | assertItem : PipeError
  | popEmpty : Nat → PipeError
  | removeMissing : Nat → PipeError
  | emptyPool : Nat → PipeError
deriving DecidableEq

/-- State threaded through the user loop of lines 102-109: the shrinking
interaction set, the accumulated `test_ratings` and `test_negs`, and the
generator stream position. -/
structure SplitState where
  ratings : List (Nat × Nat)
  tests : List (Nat × Nat)
  negs : List (List Nat)
  pos : Nat
deriving DecidableEq

/-- Python `list.pop()`: the last element and the remainder; `none` (an
`IndexError`) on an empty list. -/
def listPop (l : List Nat) : Option (Nat × List Nat) :=
  match l.getLast? with
  | none => none
  | some t => some (t, l.dropLast)

/-- Python `set.remove`: `none` (a `KeyError`) when the element is absent. -/
def setRemove (s : List (Nat × Nat)) (p : Nat × Nat) : Option (List (Nat × Nat)) :=
  if p ∈ s then some (removeFirst s p) else none

/-- One iteration of the loop of lines 102-109 for user `u`: pop the user's
last item, remove the pair from the interaction set, build the sorted
candidate pool from the post-pop history, and sample `nNeg` negatives.
`np.random.choice` raises on an empty pool unless no samples are requested. -/
def stepUser (nItems nNeg : Nat) (stream : Nat → Nat) (u2i : Nat → List Nat)
    (u : Nat) (st : SplitState) : Except PipeError SplitState :=
  match listPop (u2i u) with
  | none => .error (.popEmpty u)
  | some (t, remaining) =>
    match setRemove st.ratings (u, t) with
    | none => .error (.removeMissing u)
    | some ratings2 =>
      let pool := poolOf nItems remaining
      if pool.length == 0 && nNeg != 0 then .error (.emptyPool u)
      else
        .ok { ratings := ratings2
              tests := st.tests ++ [(u, t)]
              negs := st.negs ++ [npChoiceList pool nNeg stream st.pos]
              pos := st.pos + nNeg }

/-- The user loop of lines 102-109 over a list of user indices. -/
def processUsers (nItems nNeg : Nat) (stream : Nat → Nat) (u2i : Nat → List Nat) :
    List Nat → SplitState → Except PipeError SplitState
  | [], st => .ok st
  | u :: rest, st =>
    match stepUser nItems nNeg stream u2i u st with
    | .error e => .error e
    | .ok st2 => processUsers nItems nNeg stream u2i rest st2

/-- The three in-memory tables the writer serializes (lines 112-127), as rows
of naturals: `train-ratings.csv`, `test-ratings.csv`, `test-negative.csv`. -/
structure Outputs where
  train : List (List Nat)
  test : List (List Nat)
  negRows : List (List Nat)
deriving DecidableEq

/-- The whole pipeline of `main` after loading: filter, remap, asserts, sort,
split loop, and assembly of the three output tables.  `df0` is the loaded
table, `nNeg` is `args.negatives`, `stream` the seeded generator. -/
def pipeline (df0 : List Row) (nNeg : Nat) (stream : Nat → Nat) :
    Except PipeError Outputs :=
  let df2 := remappedDf df0
  if !(denseAssert (df2.map Row.user) (originalUsers df0).length) then
    .error .assertUser
  else if !(denseAssert (df2.map Row.item) (originalItems df0).length) then
    .error .assertItem
  else
    match processUsers (originalItems df0).length nNeg stream (userItems df0)
        (List.range (originalUsers df0).length) ⟨allRatings0 df0, [], [], 0⟩ with
    | .error e => .error e
    | .ok st =>
      .ok { train := st.ratings.map fun p => [p.1, p.2, 1]
            test := st.tests.map fun p => [p.1, p.2, 1]
            negRows := st.negs }

/-- `to_csv(..., index=False, header=False, sep='\t')`: each row's cells
joined by tabs, each row terminated by a newline, no header. -/
def renderFile (rows : List (List Nat)) : String :=
  String.join (rows.map fun r => String.intercalate "\t" (r.map toString) ++ "\n")

/-- The rendered bytes of the three output files of one run. -/
def pipelineFiles (df0 : List Row) (nNeg : Nat) (stream : Nat → Nat) :
    Except PipeError (String × String × String) :=
  (pipeline df0 nNeg stream).map fun o =>
    (renderFile o.train, renderFile o.test, renderFile o.negRows)

/-- The `test_ratings` pair list the loop accumulates: one pair per user
index, in index order. -/
def testPairs (df0 : List Row) : List (Nat × Nat) :=
  (List.range (originalUsers df0).length).map fun u => (u, testItemFor df0 u)

/-- The value `user_to_items[u].pop()` yields for a table of per-user lists
`u2i` (`0` when the list is empty and the pop raises instead). -/
def lastOf (u2i : Nat → List Nat) (u : Nat) : Nat :=
  (u2i u).getLast?.getD 0

/-- The `test_ratings` entries the loop appends while processing `us`. -/
def finalTests (u2i : Nat → List Nat) (us : List Nat) : List (Nat × Nat) :=
  us.map fun u => (u, lastOf u2i u)

/-- The `test_negs` entries the loop appends while processing `us`, starting
at stream position `pos0`: each user consumes the next `nNeg` positions. -/
def finalNegs (nItems nNeg : Nat) (stream : Nat → Nat) (u2i : Nat → List Nat)
    (pos0 : Nat) : List Nat → List (List Nat)
  | [] => []
  | u :: rest =>
    npChoiceList (poolOf nItems ((u2i u).dropLast)) nNeg stream pos0
      :: finalNegs nItems nNeg stream u2i (pos0 + nNeg) rest

/-- The rows of `test-negative.csv` for a run on `df0`: user `u`'s row is
drawn from its sorted candidate pool at stream positions
`u*nNeg, ..., u*nNeg + nNeg - 1`. -/
def testNegRows (df0 : List Row) (nNeg : Nat) (stream : Nat → Nat) :
    List (List Nat) :=
  (List.range (originalUsers df0).length).map fun u =>
    npChoiceList (poolFor df0 u) nNeg stream (u * nNeg)

/-! Concrete tables used to evaluate the pipeline at explicit inputs.  All
timestamps inside each table are pairwise distinct, so every correct
sort-by-timestamp yields the same ordering and no evaluation depends on how
the source's sort kind breaks ties. -/

/-- A well-behaved table: one dense user (id 0, 20 rows, items 0-19,
timestamps 0-19) and one sparse user (id 5, a single row) that the
minimum-ratings filter drops. -/
def wDf : List Row :=
  ((List.range 20).map fun k => ⟨0, k, k⟩) ++ [⟨5, 99, 100⟩]

/-- An arbitrary concrete generator stream. -/
def wStream : Nat → Nat :=
  fun k => k + 2

/-- The outputs of the run on `wDf` with 3 negatives per user. -/
def wOut : Outputs :=
  ((pipeline wDf 3 wStream).toOption).getD ⟨[], [], []⟩

/-- A table where user 0's chronologically last interaction repeats an item
the user already interacted with earlier (item 18 at timestamps 18 and 30):
after the pop, item 18 is still in the training history, so the candidate
pool excludes the held-out test item.  User 1 contributes 20 further items so
the pool stays non-empty. -/
def c2Df : List Row :=
  ((List.range 19).map fun k => ⟨0, k, k⟩) ++ [⟨0, 18, 30⟩]
    ++ ((List.range 20).map fun k => ⟨1, 100 + k, 50 + k⟩)

/-- The outputs of the run on `c2Df` with 2 negatives per user. -/
def c2Out : Outputs :=
  ((pipeline c2Df 2 wStream).toOption).getD ⟨[], [], []⟩

/-- A table whose single user interacts with every item even after the pop
(items 0-19 at timestamps 0-19, then item 0 again at timestamp 20): the
candidate pool is empty and `np.random.choice` raises. -/
def c10Df : List Row :=
  ((List.range 20).map fun k => ⟨0, k, k⟩) ++ [⟨0, 0, 20⟩]

/-- A table with a single row: its user has 1 < 20 ratings, so the filtered
table is empty. -/
def c7Df : List Row :=
  [⟨0, 0, 0⟩]

/-- A second concrete stream, pointwise equal to `fun k => 2 * k % 7` written
differently. -/
def wStreamA : Nat → Nat :=
  fun k => (k + k) % 7

/-- The same stream as `wStreamA`, up to pointwise equality. -/
def wStreamB : Nat → Nat :=
  fun k => 2 * k % 7

instance : IsTotal Row fun a b => a.ts ≤ b.ts :=
  ⟨fun a b => Nat.le_total a.ts b.ts⟩

instance : IsTrans Row fun a b => a.ts ≤ b.ts :=
  ⟨fun _ _ _ h h2 => Nat.le_trans h h2⟩

end Convert

/-! ## Supporting lemmas: the small container primitives -/

namespace Convert

theorem idxOf_lt_length {α : Type} [DecidableEq α] {l : List α} {x : α}
    (h : x ∈ l) : idxOf l x < l.length := by
  induction l with
  | nil => cases h
  | cons y ys ih =>
    by_cases hy : y = x
    · simp [idxOf, hy]
    · rcases List.mem_cons.1 h with h1 | h1
      · exact absurd h1.symm hy
      · simpa [idxOf, hy, Nat.succ_lt_succ_iff] using ih h1

theorem getElem_idxOf {α : Type} [DecidableEq α] {l : List α} {x : α}
    (h : x ∈ l) (hlt : idxOf l x < l.length) : l[idxOf l x] = x := by
  induction l with
  | nil => cases h
  | cons y ys ih =>
    by_cases hy : y = x
    · simp [idxOf, hy]
    · rcases List.mem_cons.1 h with h1 | h1
      · exact absurd h1.symm hy
      · have hlt2 : idxOf ys x < ys.length := idxOf_lt_length h1
        simpa [idxOf, hy] using ih h1 hlt2

theorem idxOf_getElem {α : Type} [DecidableEq α] {l : List α}
    (hn : l.Nodup) (i : Nat) (hi : i < l.length) : idxOf l (l[i]) = i := by
  induction l generalizing i with
  | nil => cases hi
  | cons y ys ih =>
    obtain ⟨hy, hn2⟩ := List.nodup_cons.1 hn
    cases i with
    | zero => simp [idxOf]
    | succ j =>
      have hj : j < ys.length := Nat.lt_of_succ_lt_succ hi
      have hmem : ys[j] ∈ ys := List.getElem_mem hj
      have hne : y ≠ ys[j] := fun hc => hy (hc ▸ hmem)
      simp [idxOf, hne, ih hn2 j hj]

theorem idxOf_inj {α : Type} [DecidableEq α] {l : List α} {x y : α}
    (hx : x ∈ l) (hy : y ∈ l) (h : idxOf l x = idxOf l y) : x = y := by
  induction l with
  | nil => cases hx
  | cons a as ih =>
    by_cases hax : a = x <;> by_cases hay : a = y
    · rw [← hax, hay]
    · rw [idxOf, if_pos hax, idxOf, if_neg hay] at h
      cases h
    · rw [idxOf, if_neg hax, idxOf, if_pos hay] at h
      cases h
    · rw [idxOf, if_neg hax, idxOf, if_neg hay] at h
      have hx2 : x ∈ as := (List.mem_cons.1 hx).resolve_left fun hc => hax hc.symm
      have hy2 : y ∈ as := (List.mem_cons.1 hy).resolve_left fun hc => hay hc.symm
      exact ih hx2 hy2 (Nat.succ_injective h)

theorem mem_removeFirst_of_ne {α : Type} [DecidableEq α] {l : List α} {a x : α}
    (h : a ≠ x) : a ∈ removeFirst l x ↔ a ∈ l := by
  induction l with
  | nil => simp [removeFirst]
  | cons y ys ih =>
    by_cases hy : y = x
    · subst hy
      simp [removeFirst, List.mem_cons, h, fun hc : a = y => h hc]
    · simp [removeFirst, hy, List.mem_cons, ih]

theorem nodup_removeFirst {α : Type} [DecidableEq α] {l : List α} (x : α)
    (h : l.Nodup) : (removeFirst l x).Nodup := by
  induction l with
  | nil => simp [removeFirst]
  | cons y ys ih =>
    obtain ⟨hy, hn⟩ := List.nodup_cons.1 h
    by_cases hyx : y = x
    · simpa [removeFirst, hyx] using hn
    · rw [show removeFirst (y :: ys) x = y :: removeFirst ys x from by
        simp [removeFirst, hyx]]
      refine List.nodup_cons.2 ⟨?_, ih hn⟩
      intro hc
      exact hy ((mem_removeFirst_of_ne hyx).1 hc)

theorem removeFirst_eq_filter {α : Type} [DecidableEq α] {l : List α} (x : α)
    (h : l.Nodup) : removeFirst l x = l.filter fun a => decide (a ≠ x) := by
  induction l with
  | nil => simp [removeFirst]
  | cons y ys ih =>
    obtain ⟨hy, hn⟩ := List.nodup_cons.1 h
    by_cases hyx : y = x
    · subst hyx
      have h1 : removeFirst (y :: ys) y = ys := by simp [removeFirst]
      have h2 : (List.filter (fun a => decide (a ≠ y)) (y :: ys))
          = List.filter (fun a => decide (a ≠ y)) ys := by simp
      have h3 : List.filter (fun a => decide (a ≠ y)) ys = ys :=
        List.filter_eq_self.2 fun a ha => decide_eq_true fun hc => hy (hc ▸ ha)
      rw [h1, h2, h3]
    · simp [removeFirst, hyx, ih hn]

theorem mem_uniqueAux {α : Type} [DecidableEq α] (seen l : List α) (x : α) :
    x ∈ uniqueAux seen l ↔ x ∈ l ∧ x ∉ seen := by
  induction l generalizing seen with
  | nil => simp [uniqueAux]
  | cons a as ih =>
    by_cases h : a ∈ seen
    · simp only [uniqueAux, if_pos h, ih, List.mem_cons]
      constructor
      · rintro ⟨hx, hs⟩
        exact ⟨Or.inr hx, hs⟩
      · rintro ⟨hx | hx, hs⟩
        · exact absurd (hx ▸ h) hs
        · exact ⟨hx, hs⟩
    · simp only [uniqueAux, if_neg h, List.mem_cons, ih]
      constructor
      · rintro (rfl | ⟨hx, hs⟩)
        · exact ⟨Or.inl rfl, h⟩
        · exact ⟨Or.inr hx, fun hc => hs (Or.inr hc)⟩
      · rintro ⟨rfl | hx, hs⟩
        · exact Or.inl rfl
        · by_cases hxa : x = a
          · exact Or.inl hxa
          · exact Or.inr ⟨hx, fun hc => hc.elim hxa hs⟩

theorem nodup_uniqueAux {α : Type} [DecidableEq α] (seen l : List α) :
    (uniqueAux seen l).Nodup := by
  induction l generalizing seen with
  | nil => simp [uniqueAux]
  | cons a as ih =>
    by_cases h : a ∈ seen
    · simpa [uniqueAux, h] using ih seen
    · simp only [uniqueAux, if_neg h]
      refine List.nodup_cons.2 ⟨?_, ih _⟩
      intro hc
      exact ((mem_uniqueAux _ _ _).1 hc).2 (List.mem_cons_self a _)

theorem mem_uniqueVals {α : Type} [DecidableEq α] (l : List α) (x : α) :
    x ∈ uniqueVals l ↔ x ∈ l := by
  simp [uniqueVals, mem_uniqueAux]

theorem nodup_uniqueVals {α : Type} [DecidableEq α] (l : List α) :
    (uniqueVals l).Nodup :=
  nodup_uniqueAux [] l

theorem colMax_eq_none_iff (l : List Nat) : colMax l = none ↔ l = [] := by
  cases l with
  | nil => simp [colMax]
  | cons x xs =>
    simp only [colMax]
    cases colMax xs <;> simp

theorem colMax_spec (l : List Nat) (m : Nat) (h : colMax l = some m) :
    m ∈ l ∧ ∀ x ∈ l, x ≤ m := by
  induction l generalizing m with
  | nil => simp [colMax] at h
  | cons a as ih =>
    simp only [colMax] at h
    cases hm : colMax as with
    | none =>
      rw [hm] at h
      injection h with h
      subst h
      have : as = [] := (colMax_eq_none_iff as).1 hm
      subst this
      simp
    | some b =>
      rw [hm] at h
      injection h with h
      subst h
      obtain ⟨hb, hub⟩ := ih b hm
      constructor
      · rcases Nat.le_total a b with hab | hab
        · rw [Nat.max_eq_right hab]
          exact List.mem_cons_of_mem _ hb
        · rw [Nat.max_eq_left hab]
          exact List.mem_cons_self _ _
      · intro x hx
        rcases List.mem_cons.1 hx with rfl | hx
        · exact Nat.le_max_left _ _
        · exact Nat.le_trans (hub x hx) (Nat.le_max_right _ _)

theorem colMax_eq_some (l : List Nat) (b : Nat) (hb : b ∈ l)
    (hub : ∀ x ∈ l, x ≤ b) : colMax l = some b := by
  cases hm : colMax l with
  | none =>
    rw [colMax_eq_none_iff] at hm
    subst hm
    cases hb
  | some m =>
    obtain ⟨hmem, hub2⟩ := colMax_spec l m hm
    exact congrArg some (Nat.le_antisymm (hub m hmem) (hub2 b hb))

end Convert

/-! ## Supporting lemmas: filtering and remapping -/

namespace Convert

theorem mem_originalUsers_of_mem_filter {df0 : List Row} {r : Row}
    (h : r ∈ filterMinRatings df0) : r.user ∈ originalUsers df0 :=
  (mem_uniqueVals _ _).2 (List.mem_map_of_mem Row.user h)

theorem mem_originalItems_of_mem_filter {df0 : List Row} {r : Row}
    (h : r ∈ filterMinRatings df0) : r.item ∈ originalItems df0 :=
  (mem_uniqueVals _ _).2 (List.mem_map_of_mem Row.item h)

theorem originalUsers_nodup (df0 : List Row) : (originalUsers df0).Nodup :=
  nodup_uniqueVals _

theorem originalItems_nodup (df0 : List Row) : (originalItems df0).Nodup :=
  nodup_uniqueVals _

/-- Every raw user surviving the filter has at least `MIN_RATINGS` rows in
the input table. -/
theorem min_ratings_of_mem_originalUsers {df0 : List Row} {w : Nat}
    (h : w ∈ originalUsers df0) : MIN_RATINGS ≤ countUser df0 w := by
  obtain ⟨r, hr, hru⟩ := List.mem_map.1 ((mem_uniqueVals _ _).1 h)
  have hp := List.of_mem_filter hr
  rw [decide_eq_true_eq] at hp
  exact hru ▸ hp

/-- Every raw user of the input with at least `MIN_RATINGS` rows survives the
filter. -/
theorem mem_originalUsers_of_min_ratings {df0 : List Row} {r : Row}
    (hr : r ∈ df0) (h : MIN_RATINGS ≤ countUser df0 r.user) :
    r.user ∈ originalUsers df0 := by
  have : r ∈ filterMinRatings df0 :=
    List.mem_filter.2 ⟨hr, decide_eq_true h⟩
  exact mem_originalUsers_of_mem_filter this

theorem sortedDf_perm (df0 : List Row) :
    List.Perm (sortedDf df0) (remappedDf df0) :=
  List.perm_insertionSort _ _

theorem mem_sortedDf_iff {df0 : List Row} {r : Row} :
    r ∈ sortedDf df0 ↔ r ∈ remappedDf df0 :=
  (sortedDf_perm df0).mem_iff

theorem sortedDf_sorted (df0 : List Row) :
    (sortedDf df0).Sorted fun a b => a.ts ≤ b.ts :=
  List.sorted_insertionSort _ _

/-- Remapped user indices are below the number of unique users, item indices
below the number of unique items. -/
theorem mem_remappedDf_bounds {df0 : List Row} {r : Row}
    (h : r ∈ remappedDf df0) :
    r.user < (originalUsers df0).length ∧ r.item < (originalItems df0).length := by
  obtain ⟨r0, hr0, rfl⟩ := List.mem_map.1 h
  exact ⟨idxOf_lt_length (mem_originalUsers_of_mem_filter hr0),
    idxOf_lt_length (mem_originalItems_of_mem_filter hr0)⟩

/-- Every user index below the number of unique users is realized by some
remapped row. -/
theorem exists_remapped_row_user {df0 : List Row} {u : Nat}
    (hu : u < (originalUsers df0).length) :
    ∃ r ∈ remappedDf df0, r.user = u := by
  have hmem : (originalUsers df0)[u] ∈ originalUsers df0 := List.getElem_mem hu
  obtain ⟨r0, hr0, hru⟩ := List.mem_map.1 ((mem_uniqueVals _ _).1 hmem)
  refine ⟨⟨idxOf (originalUsers df0) r0.user, idxOf (originalItems df0) r0.item, r0.ts⟩,
    List.mem_map_of_mem _ hr0, ?_⟩
  show idxOf (originalUsers df0) r0.user = u
  rw [hru]
  exact idxOf_getElem (originalUsers_nodup df0) u hu

/-- Every user index below the number of unique users owns at least one row
of the sorted table, so its `user_to_items` list is non-empty. -/
theorem userItems_ne_nil {df0 : List Row} {u : Nat}
    (hu : u < (originalUsers df0).length) : userItems df0 u ≠ [] := by
  obtain ⟨r, hr, hru⟩ := exists_remapped_row_user hu
  have hmem : r ∈ sortedDf df0 := mem_sortedDf_iff.2 hr
  have : r ∈ (sortedDf df0).filter fun s => s.user == u :=
    List.mem_filter.2 ⟨hmem, by simp [hru]⟩
  intro hc
  rw [userItems, List.map_eq_nil_iff] at hc
  rw [hc] at this
  cases this

/-- Values of user `u`'s item list are remapped item indices, hence below the
number of unique items. -/
theorem mem_userItems_lt {df0 : List Row} {u x : Nat}
    (h : x ∈ userItems df0 u) : x < (originalItems df0).length := by
  obtain ⟨r, hr, rfl⟩ := List.mem_map.1 h
  exact (mem_remappedDf_bounds (mem_sortedDf_iff.1 (List.mem_filter.1 hr).1)).2

/-- The filtered table keeps every row of a retained user, so group sizes
carry over from the input table. -/
theorem countUser_filterMinRatings {df0 : List Row} {w : Nat}
    (h : MIN_RATINGS ≤ countUser df0 w) :
    countUser (filterMinRatings df0) w = countUser df0 w := by
  unfold countUser filterMinRatings
  rw [List.filter_filter]
  congr 1
  apply List.filter_congr
  intro r _
  by_cases hw : r.user = w
  · simp [hw, h]
  · simp [hw]

/-- The length of user `u`'s item list equals the input-table interaction
count of the raw user that `u` remaps. -/
theorem length_userItems {df0 : List Row} {u : Nat}
    (hu : u < (originalUsers df0).length) :
    (userItems df0 u).length = countUser df0 ((originalUsers df0).getD u 0) := by
  have hmem : (originalUsers df0)[u] ∈ originalUsers df0 := List.getElem_mem hu
  have hcnt : MIN_RATINGS ≤ countUser df0 ((originalUsers df0)[u]) :=
    min_ratings_of_mem_originalUsers hmem
  rw [List.getD_eq_getElem _ _ hu]
  rw [← countUser_filterMinRatings hcnt]
  unfold userItems
  rw [List.length_map]
  have hperm : List.Perm ((sortedDf df0).filter fun s => s.user == u)
      ((remappedDf df0).filter fun s => s.user == u) :=
    (sortedDf_perm df0).filter _
  rw [hperm.length_eq]
  unfold remappedDf countUser
  rw [List.filter_map, List.length_map]
  congr 1
  apply List.filter_congr
  intro r hr
  show ((idxOf (originalUsers df0) r.user : Nat) == u)
      = (r.user == (originalUsers df0)[u])
  have hru : r.user ∈ originalUsers df0 := mem_originalUsers_of_mem_filter hr
  by_cases hcase : r.user = (originalUsers df0)[u]
  · rw [hcase, idxOf_getElem (originalUsers_nodup df0) u hu]
    simp
  · have hne : idxOf (originalUsers df0) r.user ≠ u := by
      intro hc
      apply hcase
      have h2 : idxOf (originalUsers df0) ((originalUsers df0)[u]) = u :=
        idxOf_getElem (originalUsers_nodup df0) u hu
      exact idxOf_inj hru (List.getElem_mem hu) (hc.trans h2.symm)
    simp [hne, hcase]

end Convert

/-! ## Supporting lemmas: the split loop -/

namespace Convert

theorem lastOf_mem {u2i : Nat → List Nat} {u : Nat} (h : u2i u ≠ []) :
    lastOf u2i u ∈ u2i u := by
  rw [lastOf, List.getLast?_eq_getLast _ h]
  exact List.getLast_mem h

theorem listPop_eq_some {l : List Nat} (h : l ≠ []) :
    listPop l = some (l.getLast?.getD 0, l.dropLast) := by
  rw [listPop, List.getLast?_eq_getLast _ h]
  simp [List.getLast?_eq_getLast _ h]

/-- Evaluation of one loop step when the pop and the remove succeed and the
candidate pool is usable. -/
theorem stepUser_eq_ok (nItems nNeg : Nat) (stream : Nat → Nat)
    (u2i : Nat → List Nat) (u : Nat) (st : SplitState)
    (h1 : u2i u ≠ [])
    (h2 : (u, lastOf u2i u) ∈ st.ratings)
    (h3 : poolOf nItems ((u2i u).dropLast) ≠ [] ∨ nNeg = 0) :
    stepUser nItems nNeg stream u2i u st = .ok
      { ratings := removeFirst st.ratings (u, lastOf u2i u)
        tests := st.tests ++ [(u, lastOf u2i u)]
        negs := st.negs ++
          [npChoiceList (poolOf nItems ((u2i u).dropLast)) nNeg stream st.pos]
        pos := st.pos + nNeg } := by
  have h2x : (u, (u2i u).getLast?.getD 0) ∈ st.ratings := h2
  have hsr : setRemove st.ratings (u, (u2i u).getLast?.getD 0)
      = some (removeFirst st.ratings (u, (u2i u).getLast?.getD 0)) := by
    rw [setRemove, if_pos h2x]
  have hcond : ((poolOf nItems ((u2i u).dropLast)).length == 0 && nNeg != 0) = false := by
    rcases h3 with h3 | h3
    · have hlen : (poolOf nItems ((u2i u).dropLast)).length ≠ 0 := by
        simpa [List.length_eq_zero] using h3
      simp [hlen]
    · simp [h3]
  simp only [stepUser, listPop_eq_some h1, hsr, hcond, Bool.false_eq_true, if_false]
  rfl

/-- Evaluation of one loop step when the pop and the remove succeed but the
candidate pool is empty while samples are requested: `np.random.choice`
raises. -/
theorem stepUser_eq_error_emptyPool (nItems nNeg : Nat) (stream : Nat → Nat)
    (u2i : Nat → List Nat) (u : Nat) (st : SplitState)
    (h1 : u2i u ≠ [])
    (h2 : (u, lastOf u2i u) ∈ st.ratings)
    (hp : poolOf nItems ((u2i u).dropLast) = []) (hn : nNeg ≠ 0) :
    stepUser nItems nNeg stream u2i u st = .error (.emptyPool u) := by
  have h2x : (u, (u2i u).getLast?.getD 0) ∈ st.ratings := h2
  have hsr : setRemove st.ratings (u, (u2i u).getLast?.getD 0)
      = some (removeFirst st.ratings (u, (u2i u).getLast?.getD 0)) := by
    rw [setRemove, if_pos h2x]
  have hcond : ((poolOf nItems ((u2i u).dropLast)).length == 0 && nNeg != 0) = true := by
    simp [hp, hn]
  simp only [stepUser, listPop_eq_some h1, hsr, hcond, if_true]

/-- Under the loop invariants, a step either succeeds with the state of
`stepUser_eq_ok` or raises on the empty candidate pool. -/
theorem stepUser_cases (nItems nNeg : Nat) (stream : Nat → Nat)
    (u2i : Nat → List Nat) (u : Nat) (st : SplitState)
    (h1 : u2i u ≠ [])
    (h2 : (u, lastOf u2i u) ∈ st.ratings) :
    stepUser nItems nNeg stream u2i u st = .ok
      { ratings := removeFirst st.ratings (u, lastOf u2i u)
        tests := st.tests ++ [(u, lastOf u2i u)]
        negs := st.negs ++
          [npChoiceList (poolOf nItems ((u2i u).dropLast)) nNeg stream st.pos]
        pos := st.pos + nNeg }
    ∨ (stepUser nItems nNeg stream u2i u st = .error (.emptyPool u)
        ∧ poolOf nItems ((u2i u).dropLast) = [] ∧ nNeg ≠ 0) := by
  by_cases h3 : poolOf nItems ((u2i u).dropLast) ≠ [] ∨ nNeg = 0
  · exact Or.inl (stepUser_eq_ok nItems nNeg stream u2i u st h1 h2 h3)
  · push_neg at h3
    exact Or.inr ⟨stepUser_eq_error_emptyPool nItems nNeg stream u2i u st h1 h2
      h3.1 h3.2, h3.1, h3.2⟩

end Convert

namespace Convert

theorem foldl_removeFirst_eq_filter {α : Type} [DecidableEq α] (ps : List α) :
    ∀ (s : List α), s.Nodup →
    ps.foldl removeFirst s = s.filter fun a => decide (a ∉ ps) := by
  induction ps with
  | nil =>
    intro s _
    simp
  | cons p ps ih =>
    intro s hs
    rw [List.foldl_cons, ih (removeFirst s p) (nodup_removeFirst p hs),
      removeFirst_eq_filter p hs, List.filter_filter]
    apply List.filter_congr
    intro a _
    by_cases h1 : a = p <;> by_cases h2 : a ∈ ps <;> simp [h1, h2]

/-- Inversion of a successful loop run: when every processed user owns a
non-empty item list and its test pair is in the interaction set, the final
state is determined: tests and negatives accumulate in user order, the pops
advance the stream by `nNeg` per user, and the interaction set loses exactly
the popped pairs. -/
theorem processUsers_ok_inv (nItems nNeg : Nat) (stream : Nat → Nat)
    (u2i : Nat → List Nat) :
    ∀ (us : List Nat) (st st' : SplitState), us.Nodup →
    (∀ u ∈ us, u2i u ≠ []) →
    (∀ u ∈ us, (u, lastOf u2i u) ∈ st.ratings) →
    processUsers nItems nNeg stream u2i us st = .ok st' →
    st' = { ratings := (us.map fun u => (u, lastOf u2i u)).foldl removeFirst st.ratings
            tests := st.tests ++ finalTests u2i us
            negs := st.negs ++ finalNegs nItems nNeg stream u2i st.pos us
            pos := st.pos + us.length * nNeg } := by
  intro us
  induction us with
  | nil =>
    intro st st' _ _ _ hproc
    simp only [processUsers] at hproc
    injection hproc with hproc
    subst hproc
    simp [finalTests, finalNegs]
  | cons u rest ih =>
    intro st st' hnd h1 h2 hproc
    obtain ⟨hu, hndr⟩ := List.nodup_cons.1 hnd
    have h1u := h1 u (List.mem_cons_self _ _)
    have h2u := h2 u (List.mem_cons_self _ _)
    rcases stepUser_cases nItems nNeg stream u2i u st h1u h2u with heq | ⟨heq, _, _⟩
    · rw [processUsers, heq] at hproc
      have h2r : ∀ v ∈ rest,
          (v, lastOf u2i v) ∈ removeFirst st.ratings (u, lastOf u2i u) := by
        intro v hv
        have hvu : v ≠ u := fun hc => hu (hc ▸ hv)
        have hne : (v, lastOf u2i v) ≠ (u, lastOf u2i u) := by
          intro hc
          exact hvu (congrArg Prod.fst hc)
        exact (mem_removeFirst_of_ne hne).2 (h2 v (List.mem_cons_of_mem _ hv))
      have := ih _ st' hndr (fun v hv => h1 v (List.mem_cons_of_mem _ hv)) h2r hproc
      rw [this]
      simp only [SplitState.mk.injEq]
      refine ⟨?_, ?_, ?_, ?_⟩
      · rw [List.map_cons, List.foldl_cons]
      · simp [finalTests, List.append_assoc]
      · simp [finalNegs, List.append_assoc]
      · rw [List.length_cons, Nat.succ_mul]
        omega
    · rw [processUsers, heq] at hproc
      cases hproc

/-- An erroring loop run under the same invariants can only be the
empty-candidate-pool raise of `np.random.choice`. -/
theorem processUsers_error_cases (nItems nNeg : Nat) (stream : Nat → Nat)
    (u2i : Nat → List Nat) :
    ∀ (us : List Nat) (st : SplitState) (e : PipeError), us.Nodup →
    (∀ u ∈ us, u2i u ≠ []) →
    (∀ u ∈ us, (u, lastOf u2i u) ∈ st.ratings) →
    processUsers nItems nNeg stream u2i us st = .error e →
    ∃ u ∈ us, e = .emptyPool u
      ∧ poolOf nItems ((u2i u).dropLast) = [] ∧ nNeg ≠ 0 := by
  intro us
  induction us with
  | nil =>
    intro st e _ _ _ hproc
    simp only [processUsers] at hproc
    cases hproc
  | cons u rest ih =>
    intro st e hnd h1 h2 hproc
    obtain ⟨hu, hndr⟩ := List.nodup_cons.1 hnd
    have h1u := h1 u (List.mem_cons_self _ _)
    have h2u := h2 u (List.mem_cons_self _ _)
    rcases stepUser_cases nItems nNeg stream u2i u st h1u h2u
      with heq | ⟨heq, hpool, hn⟩
    · rw [processUsers, heq] at hproc
      have h2r : ∀ v ∈ rest,
          (v, lastOf u2i v) ∈ removeFirst st.ratings (u, lastOf u2i u) := by
        intro v hv
        have hvu : v ≠ u := fun hc => hu (hc ▸ hv)
        have hne : (v, lastOf u2i v) ≠ (u, lastOf u2i u) := by
          intro hc
          exact hvu (congrArg Prod.fst hc)
        exact (mem_removeFirst_of_ne hne).2 (h2 v (List.mem_cons_of_mem _ hv))
      obtain ⟨v, hv, he⟩ := ih _ e hndr
        (fun v hv => h1 v (List.mem_cons_of_mem _ hv)) h2r hproc
      exact ⟨v, List.mem_cons_of_mem _ hv, he⟩
    · rw [processUsers, heq] at hproc
      injection hproc with hproc
      exact ⟨u, List.mem_cons_self _ _, hproc.symm, hpool, hn⟩

/-- Totality of the loop when no user's candidate pool can be empty while
samples are requested. -/
theorem processUsers_total (nItems nNeg : Nat) (stream : Nat → Nat)
    (u2i : Nat → List Nat) (us : List Nat) (st : SplitState) (hnd : us.Nodup)
    (h1 : ∀ u ∈ us, u2i u ≠ [])
    (h2 : ∀ u ∈ us, (u, lastOf u2i u) ∈ st.ratings)
    (h3 : ∀ u ∈ us, poolOf nItems ((u2i u).dropLast) ≠ [] ∨ nNeg = 0) :
    ∃ st', processUsers nItems nNeg stream u2i us st = .ok st' := by
  cases hres : processUsers nItems nNeg stream u2i us st with
  | ok st' => exact ⟨st', rfl⟩
  | error e =>
    obtain ⟨u, hu, _, hpool, hn⟩ :=
      processUsers_error_cases nItems nNeg stream u2i us st e hnd h1 h2 hres
    rcases h3 u hu with hc | hc
    · exact absurd hpool hc
    · exact absurd hc hn

end Convert

/-! ## Supporting lemmas: pipeline preconditions and the asserts -/

namespace Convert

theorem pair_mem_allRatings0 {df0 : List Row} {u x : Nat}
    (h : x ∈ userItems df0 u) : (u, x) ∈ allRatings0 df0 := by
  obtain ⟨r, hr, rfl⟩ := List.mem_map.1 h
  obtain ⟨hrs, hru⟩ := List.mem_filter.1 hr
  have hru2 : r.user = u := by simpa using hru
  refine (mem_uniqueVals _ _).2 ?_
  have : (r.user, r.item) ∈ (sortedDf df0).map fun s => (s.user, s.item) :=
    List.mem_map_of_mem _ hrs
  rwa [hru2] at this

theorem allRatings0_nodup (df0 : List Row) : (allRatings0 df0).Nodup :=
  nodup_uniqueVals _

/-- The initial invariants of the split loop over `range (len original_users)`:
every user owns a non-empty item list whose popped pair is in the interaction
set. -/
theorem loop_preconditions (df0 : List Row) :
    (∀ u ∈ List.range (originalUsers df0).length, userItems df0 u ≠ []) ∧
    (∀ u ∈ List.range (originalUsers df0).length,
      (u, lastOf (userItems df0) u) ∈ allRatings0 df0) := by
  constructor
  · intro u hu
    exact userItems_ne_nil (List.mem_range.1 hu)
  · intro u hu
    have hne : userItems df0 u ≠ [] := userItems_ne_nil (List.mem_range.1 hu)
    exact pair_mem_allRatings0 (lastOf_mem hne)

theorem originalUsers_ne_nil {df0 : List Row} (hne : filterMinRatings df0 ≠ []) :
    originalUsers df0 ≠ [] := by
  obtain ⟨r, hr⟩ := List.exists_mem_of_ne_nil _ hne
  exact List.ne_nil_of_mem (mem_originalUsers_of_mem_filter hr)

theorem originalItems_ne_nil {df0 : List Row} (hne : filterMinRatings df0 ≠ []) :
    originalItems df0 ≠ [] := by
  obtain ⟨r, hr⟩ := List.exists_mem_of_ne_nil _ hne
  exact List.ne_nil_of_mem (mem_originalItems_of_mem_filter hr)

/-- Every item index below the number of unique items is realized by some
remapped row. -/
theorem exists_remapped_row_item {df0 : List Row} {i : Nat}
    (hi : i < (originalItems df0).length) :
    ∃ r ∈ remappedDf df0, r.item = i := by
  have hmem : (originalItems df0)[i] ∈ originalItems df0 := List.getElem_mem hi
  obtain ⟨r0, hr0, hri⟩ := List.mem_map.1 ((mem_uniqueVals _ _).1 hmem)
  refine ⟨⟨idxOf (originalUsers df0) r0.user, idxOf (originalItems df0) r0.item, r0.ts⟩,
    List.mem_map_of_mem _ hr0, ?_⟩
  show idxOf (originalItems df0) r0.item = i
  rw [hri]
  exact idxOf_getElem (originalItems_nodup df0) i hi

/-- The user column of the remapped table attains exactly
`len(original_users) - 1` as its maximum. -/
theorem colMax_userCol {df0 : List Row} (hne : filterMinRatings df0 ≠ []) :
    colMax ((remappedDf df0).map Row.user)
      = some ((originalUsers df0).length - 1) := by
  have hU : 0 < (originalUsers df0).length :=
    List.length_pos.2 (originalUsers_ne_nil hne)
  apply colMax_eq_some
  · obtain ⟨r, hr, hru⟩ := @exists_remapped_row_user df0
      ((originalUsers df0).length - 1) (by omega)
    rw [← hru]
    exact List.mem_map_of_mem _ hr
  · intro v hv
    obtain ⟨r, hr, rfl⟩ := List.mem_map.1 hv
    have := (mem_remappedDf_bounds hr).1
    omega

/-- The item column of the remapped table attains exactly
`len(original_items) - 1` as its maximum. -/
theorem colMax_itemCol {df0 : List Row} (hne : filterMinRatings df0 ≠ []) :
    colMax ((remappedDf df0).map Row.item)
      = some ((originalItems df0).length - 1) := by
  have hI : 0 < (originalItems df0).length :=
    List.length_pos.2 (originalItems_ne_nil hne)
  apply colMax_eq_some
  · obtain ⟨r, hr, hri⟩ := @exists_remapped_row_item df0
      ((originalItems df0).length - 1) (by omega)
    rw [← hri]
    exact List.mem_map_of_mem _ hr
  · intro v hv
    obtain ⟨r, hr, rfl⟩ := List.mem_map.1 hv
    have := (mem_remappedDf_bounds hr).2
    omega

theorem denseAssert_true_of_colMax {vals : List Nat} {n : Nat}
    (hn : 0 < n) (h : colMax vals = some (n - 1)) :
    denseAssert vals n = true := by
  have hc : ((n - 1 : Nat) : Int) = (n : Int) - 1 := by omega
  simp only [denseAssert, h]
  rw [hc]
  simp

/-- On a non-empty filtered table both asserts of lines 74-75 pass. -/
theorem denseAsserts_pass {df0 : List Row} (hne : filterMinRatings df0 ≠ []) :
    denseAssert ((remappedDf df0).map Row.user) (originalUsers df0).length = true
    ∧ denseAssert ((remappedDf df0).map Row.item) (originalItems df0).length = true := by
  have hU : 0 < (originalUsers df0).length :=
    List.length_pos.2 (originalUsers_ne_nil hne)
  have hI : 0 < (originalItems df0).length :=
    List.length_pos.2 (originalItems_ne_nil hne)
  exact ⟨denseAssert_true_of_colMax hU (colMax_userCol hne),
    denseAssert_true_of_colMax hI (colMax_itemCol hne)⟩

end Convert

/-! ## Supporting lemmas: the whole pipeline -/

namespace Convert

theorem finalNegs_range' (nItems nNeg : Nat) (stream : Nat → Nat)
    (u2i : Nat → List Nat) :
    ∀ (n a : Nat),
    finalNegs nItems nNeg stream u2i (a * nNeg) (List.range' a n)
      = (List.range' a n).map fun u =>
          npChoiceList (poolOf nItems ((u2i u).dropLast)) nNeg stream (u * nNeg) := by
  intro n
  induction n with
  | zero =>
    intro a
    simp [finalNegs]
  | succ n ih =>
    intro a
    rw [List.range'_succ, finalNegs, List.map_cons]
    congr 1
    have : a * nNeg + nNeg = (a + 1) * nNeg := by
      rw [Nat.succ_mul]
    rw [this]
    exact ih (a + 1)

/-- The accumulated negatives of the full loop are exactly the
`test-negative.csv` rows. -/
theorem finalNegs_eq_testNegRows (df0 : List Row) (nNeg : Nat)
    (stream : Nat → Nat) :
    finalNegs (originalItems df0).length nNeg stream (userItems df0) 0
      (List.range (originalUsers df0).length) = testNegRows df0 nNeg stream := by
  have h := finalNegs_range' (originalItems df0).length nNeg stream (userItems df0)
    (originalUsers df0).length 0
  rw [Nat.zero_mul] at h
  rw [List.range_eq_range', testNegRows, List.range_eq_range']
  exact h

/-- The canonical outputs of a successful run. -/
theorem pipeline_ok_shape {df0 : List Row} {nNeg : Nat} {stream : Nat → Nat}
    {out : Outputs} (h : pipeline df0 nNeg stream = .ok out) :
    out = { train := ((allRatings0 df0).filter fun p =>
                decide (p ∉ testPairs df0)).map fun p => [p.1, p.2, 1]
            test := (testPairs df0).map fun p => [p.1, p.2, 1]
            negRows := testNegRows df0 nNeg stream } := by
  cases hA : denseAssert ((remappedDf df0).map Row.user) (originalUsers df0).length with
  | false =>
    rw [pipeline] at h
    simp only [hA] at h
    cases h
  | true =>
    cases hB : denseAssert ((remappedDf df0).map Row.item) (originalItems df0).length with
    | false =>
      rw [pipeline] at h
      simp only [hA, hB] at h
      cases h
    | true =>
      rw [pipeline] at h
      simp only [hA, hB, Bool.not_true, Bool.false_eq_true, if_false] at h
      obtain ⟨hpre1, hpre2⟩ := loop_preconditions df0
      cases hres : processUsers (originalItems df0).length nNeg stream (userItems df0)
          (List.range (originalUsers df0).length) ⟨allRatings0 df0, [], [], 0⟩ with
      | error e =>
        rw [hres] at h
        cases h
      | ok st =>
        rw [hres] at h
        injection h with h
        subst h
        have hshape := processUsers_ok_inv (originalItems df0).length nNeg stream
          (userItems df0) (List.range (originalUsers df0).length)
          ⟨allRatings0 df0, [], [], 0⟩ st (List.nodup_range _) hpre1 hpre2 hres
        rw [hshape]
        simp only [Outputs.mk.injEq]
        refine ⟨?_, ?_, ?_⟩
        · have hfold := foldl_removeFirst_eq_filter
            ((List.range (originalUsers df0).length).map fun u =>
              (u, lastOf (userItems df0) u))
            (allRatings0 df0) (allRatings0_nodup df0)
          rw [hfold]
          refine congrArg (List.map fun p : Nat × Nat => [p.1, p.2, 1]) ?_
          refine List.filter_congr ?_
          intro p _
          rw [decide_eq_decide]
          exact Iff.rfl
        · rfl
        · rw [List.nil_append]
          rw [finalNegs_eq_testNegRows]

/-- Any erroring run is a failing assert or an empty candidate pool. -/
theorem pipeline_error_shape {df0 : List Row} {nNeg : Nat} {stream : Nat → Nat}
    {e : PipeError} (h : pipeline df0 nNeg stream = .error e) :
    e = .assertUser ∨ e = .assertItem
    ∨ ∃ u, u < (originalUsers df0).length ∧ e = .emptyPool u
        ∧ poolFor df0 u = [] ∧ nNeg ≠ 0 := by
  cases hA : denseAssert ((remappedDf df0).map Row.user) (originalUsers df0).length with
  | false =>
    rw [pipeline] at h
    simp only [hA] at h
    injection h with h
    exact Or.inl h.symm
  | true =>
    cases hB : denseAssert ((remappedDf df0).map Row.item) (originalItems df0).length with
    | false =>
      rw [pipeline] at h
      simp only [hA, hB] at h
      injection h with h
      exact Or.inr (Or.inl h.symm)
    | true =>
      rw [pipeline] at h
      simp only [hA, hB, Bool.not_true, Bool.false_eq_true, if_false] at h
      obtain ⟨hpre1, hpre2⟩ := loop_preconditions df0
      cases hres : processUsers (originalItems df0).length nNeg stream (userItems df0)
          (List.range (originalUsers df0).length) ⟨allRatings0 df0, [], [], 0⟩ with
      | error e2 =>
        rw [hres] at h
        injection h with h
        subst h
        obtain ⟨u, hu, he, hpool, hn⟩ := processUsers_error_cases
          (originalItems df0).length nNeg stream (userItems df0)
          (List.range (originalUsers df0).length) ⟨allRatings0 df0, [], [], 0⟩ e2
          (List.nodup_range _) hpre1 hpre2 hres
        exact Or.inr (Or.inr ⟨u, List.mem_range.1 hu, he, hpool, hn⟩)
      | ok st =>
        rw [hres] at h
        cases h

/-- A run on a table that is non-empty after filtering, with every candidate
pool usable, succeeds. -/
theorem pipeline_total {df0 : List Row} {nNeg : Nat} (stream : Nat → Nat)
    (hne : filterMinRatings df0 ≠ [])
    (h3 : ∀ u, u < (originalUsers df0).length → poolFor df0 u ≠ [] ∨ nNeg = 0) :
    ∃ out, pipeline df0 nNeg stream = .ok out := by
  obtain ⟨hA, hB⟩ := denseAsserts_pass hne
  obtain ⟨hpre1, hpre2⟩ := loop_preconditions df0
  obtain ⟨st, hst⟩ := processUsers_total (originalItems df0).length nNeg stream
    (userItems df0) (List.range (originalUsers df0).length)
    ⟨allRatings0 df0, [], [], 0⟩ (List.nodup_range _) hpre1 hpre2
    (fun u hu => h3 u (List.mem_range.1 hu))
  refine ⟨{ train := st.ratings.map fun p => [p.1, p.2, 1]
            test := st.tests.map fun p => [p.1, p.2, 1]
            negRows := st.negs }, ?_⟩
  rw [pipeline]
  simp only [hA, hB, Bool.not_true, Bool.false_eq_true, if_false, hst]

/-- A table that is empty after filtering fails the first assert: the max of
an empty column is NaN. -/
theorem pipeline_empty_filter {df0 : List Row} (nNeg : Nat) (stream : Nat → Nat)
    (hempty : filterMinRatings df0 = []) :
    pipeline df0 nNeg stream = .error .assertUser := by
  have hA : denseAssert ((remappedDf df0).map Row.user) (originalUsers df0).length
      = false := by
    rw [remappedDf, hempty]
    simp [denseAssert, colMax]
  rw [pipeline]
  simp only [hA, Bool.not_false, if_true]

end Convert

/-! ## Supporting lemmas: candidate pools, sampled values, chronological order -/

namespace Convert

theorem mem_poolOf {nItems x : Nat} {hist : List Nat} :
    x ∈ poolOf nItems hist ↔ x < nItems ∧ x ∉ hist := by
  rw [poolOf, List.mem_insertionSort, List.mem_filter]
  simp [List.mem_range]

theorem poolOf_sorted (nItems : Nat) (hist : List Nat) :
    List.Sorted (· ≤ ·) (poolOf nItems hist) :=
  List.sorted_insertionSort _ _

theorem length_npChoiceList (pool : List Nat) (n : Nat) (stream : Nat → Nat)
    (pos : Nat) : (npChoiceList pool n stream pos).length = n := by
  simp [npChoiceList]

theorem mem_npChoiceList {pool : List Nat} {n : Nat} {stream : Nat → Nat}
    {pos x : Nat} (hp : pool ≠ []) (h : x ∈ npChoiceList pool n stream pos) :
    x ∈ pool := by
  obtain ⟨i, _, rfl⟩ := List.mem_map.1 h
  have hlen : 0 < pool.length := List.length_pos.2 hp
  have hlt : draw stream (pos + i) pool.length < pool.length :=
    Nat.mod_lt _ hlen
  rw [List.getD_eq_getElem _ _ hlt]
  exact List.getElem_mem hlt

/-- In a timestamp-sorted row list every row's timestamp is at most the last
row's. -/
theorem sorted_ts_le_getLast :
    ∀ (l : List Row), l.Sorted (fun a b => a.ts ≤ b.ts) → ∀ (h : l ≠ []),
    ∀ r ∈ l, r.ts ≤ (l.getLast h).ts := by
  intro l
  induction l with
  | nil =>
    intro _ h
    exact absurd rfl h
  | cons a as ih =>
    intro hs h r hr
    cases as with
    | nil =>
      rcases List.mem_cons.1 hr with rfl | hr2
      · simp [List.getLast]
      · cases hr2
    | cons b bs =>
      have hne : b :: bs ≠ [] := by simp
      rw [List.getLast_cons hne]
      rcases List.mem_cons.1 hr with rfl | hr2
      · exact (List.rel_of_sorted_cons hs) _ (List.getLast_mem hne)
      · exact ih (List.Sorted.of_cons hs) hne r hr2

/-- The popped test item of user `u` comes from an interaction of `u` with
maximal timestamp among `u`'s rows: the chronologically last interaction. -/
theorem testItem_chronologically_last {df0 : List Row} {u : Nat}
    (hu : u < (originalUsers df0).length) :
    ∃ rl ∈ remappedDf df0, rl.user = u ∧ rl.item = testItemFor df0 u ∧
      ∀ r ∈ remappedDf df0, r.user = u → r.ts ≤ rl.ts := by
  have hne : userItems df0 u ≠ [] := userItems_ne_nil hu
  have hrowsne : ((sortedDf df0).filter fun r => r.user == u) ≠ [] := by
    intro hc
    rw [userItems, hc] at hne
    exact hne rfl
  set rows := (sortedDf df0).filter fun r => r.user == u with hrows
  have hsorted : rows.Sorted fun a b => a.ts ≤ b.ts :=
    (sortedDf_sorted df0).sublist (List.filter_sublist _)
  refine ⟨rows.getLast hrowsne, ?_, ?_, ?_, ?_⟩
  · exact mem_sortedDf_iff.1 (List.mem_filter.1 (List.getLast_mem hrowsne)).1
  · have := (List.mem_filter.1 (List.getLast_mem hrowsne)).2
    simpa using this
  · rw [testItemFor, userItems, ← hrows, List.getLast?_map,
      List.getLast?_eq_getLast rows hrowsne]
    rfl
  · intro r hr hru
    have hrmem : r ∈ rows := by
      rw [hrows]
      exact List.mem_filter.2 ⟨mem_sortedDf_iff.2 hr, by simp [hru]⟩
    exact sorted_ts_le_getLast rows hsorted hrowsne r hrmem

/-- A successful loop run certifies that no processed user hit the empty
candidate pool (unless no samples were requested). -/
theorem processUsers_ok_pools (nItems nNeg : Nat) (stream : Nat → Nat)
    (u2i : Nat → List Nat) :
    ∀ (us : List Nat) (st st' : SplitState), us.Nodup →
    (∀ u ∈ us, u2i u ≠ []) →
    (∀ u ∈ us, (u, lastOf u2i u) ∈ st.ratings) →
    processUsers nItems nNeg stream u2i us st = .ok st' →
    ∀ u ∈ us, poolOf nItems ((u2i u).dropLast) ≠ [] ∨ nNeg = 0 := by
  intro us
  induction us with
  | nil =>
    intro st st' _ _ _ _ u hu
    cases hu
  | cons u rest ih =>
    intro st st' hnd h1 h2 hproc v hv
    obtain ⟨hu, hndr⟩ := List.nodup_cons.1 hnd
    have h1u := h1 u (List.mem_cons_self _ _)
    have h2u := h2 u (List.mem_cons_self _ _)
    rcases stepUser_cases nItems nNeg stream u2i u st h1u h2u with heq | ⟨heq, _, _⟩
    · rw [processUsers, heq] at hproc
      rcases List.mem_cons.1 hv with rfl | hv2
      · by_cases hc : poolOf nItems ((u2i v).dropLast) = [] ∧ nNeg ≠ 0
        · rw [stepUser_eq_error_emptyPool nItems nNeg stream u2i v st h1u h2u
            hc.1 hc.2] at heq
          cases heq
        · push_neg at hc
          by_cases hp : poolOf nItems ((u2i v).dropLast) = []
          · exact Or.inr (hc hp)
          · exact Or.inl hp
      · have h2r : ∀ w ∈ rest,
            (w, lastOf u2i w) ∈ removeFirst st.ratings (u, lastOf u2i u) := by
          intro w hw
          have hwu : w ≠ u := fun hcc => hu (hcc ▸ hw)
          have hne2 : (w, lastOf u2i w) ≠ (u, lastOf u2i u) := by
            intro hcc
            exact hwu (congrArg Prod.fst hcc)
          exact (mem_removeFirst_of_ne hne2).2 (h2 w (List.mem_cons_of_mem _ hw))
        exact ih _ st' hndr (fun w hw => h1 w (List.mem_cons_of_mem _ hw)) h2r
          hproc v hv2
    · rw [processUsers, heq] at hproc
      cases hproc

/-- A successful pipeline run certifies usable candidate pools for every
user. -/
theorem pipeline_ok_pools {df0 : List Row} {nNeg : Nat} {stream : Nat → Nat}
    {out : Outputs} (h : pipeline df0 nNeg stream = .ok out) :
    ∀ u, u < (originalUsers df0).length → poolFor df0 u ≠ [] ∨ nNeg = 0 := by
  intro u hu
  cases hA : denseAssert ((remappedDf df0).map Row.user) (originalUsers df0).length with
  | false =>
    rw [pipeline] at h
    simp only [hA] at h
    cases h
  | true =>
    cases hB : denseAssert ((remappedDf df0).map Row.item) (originalItems df0).length with
    | false =>
      rw [pipeline] at h
      simp only [hA, hB] at h
      cases h
    | true =>
      rw [pipeline] at h
      simp only [hA, hB, Bool.not_true, Bool.false_eq_true, if_false] at h
      obtain ⟨hpre1, hpre2⟩ := loop_preconditions df0
      cases hres : processUsers (originalItems df0).length nNeg stream (userItems df0)
          (List.range (originalUsers df0).length) ⟨allRatings0 df0, [], [], 0⟩ with
      | error e =>
        rw [hres] at h
        cases h
      | ok st =>
        exact processUsers_ok_pools (originalItems df0).length nNeg stream
          (userItems df0) (List.range (originalUsers df0).length)
          ⟨allRatings0 df0, [], [], 0⟩ st (List.nodup_range _) hpre1 hpre2 hres
          u (List.mem_range.2 hu)

/-- Components of `allRatings0` pairs are in-range indices. -/
theorem mem_allRatings0_bounds {df0 : List Row} {p : Nat × Nat}
    (h : p ∈ allRatings0 df0) :
    p.1 < (originalUsers df0).length ∧ p.2 < (originalItems df0).length := by
  obtain ⟨r, hr, rfl⟩ := List.mem_map.1 ((mem_uniqueVals _ _).1 h)
  exact mem_remappedDf_bounds (mem_sortedDf_iff.1 hr)

theorem testNegRows_getD {df0 : List Row} {nNeg u : Nat} {stream : Nat → Nat}
    (hu : u < (originalUsers df0).length) :
    (testNegRows df0 nNeg stream).getD u []
      = npChoiceList (poolFor df0 u) nNeg stream (u * nNeg) := by
  have hlen : u < (testNegRows df0 nNeg stream).length := by
    simpa [testNegRows] using hu
  rw [List.getD_eq_getElem _ _ hlen]
  simp [testNegRows]

end Convert

namespace Convert

theorem getD_mem_originalUsers {df0 : List Row} {u : Nat}
    (hu : u < (originalUsers df0).length) :
    (originalUsers df0).getD u 0 ∈ originalUsers df0 := by
  rw [List.getD_eq_getElem _ _ hu]
  exact List.getElem_mem hu

/-- On a table that stays non-empty after filtering, an erroring run can only
be the empty-candidate-pool raise: the asserts pass. -/
theorem pipeline_error_nonempty_shape {df0 : List Row} {nNeg : Nat}
    {stream : Nat → Nat} {e : PipeError} (hne : filterMinRatings df0 ≠ [])
    (h : pipeline df0 nNeg stream = .error e) :
    ∃ u, u < (originalUsers df0).length ∧ e = .emptyPool u
      ∧ poolFor df0 u = [] ∧ nNeg ≠ 0 := by
  obtain ⟨hA, hB⟩ := denseAsserts_pass hne
  rw [pipeline] at h
  simp only [hA, hB, Bool.not_true, Bool.false_eq_true, if_false] at h
  obtain ⟨hpre1, hpre2⟩ := loop_preconditions df0
  cases hres : processUsers (originalItems df0).length nNeg stream (userItems df0)
      (List.range (originalUsers df0).length) ⟨allRatings0 df0, [], [], 0⟩ with
  | error e2 =>
    rw [hres] at h
    injection h with h
    subst h
    obtain ⟨u, hu, he, hpool, hn⟩ := processUsers_error_cases
      (originalItems df0).length nNeg stream (userItems df0)
      (List.range (originalUsers df0).length) ⟨allRatings0 df0, [], [], 0⟩ e2
      (List.nodup_range _) hpre1 hpre2 hres
    exact ⟨u, List.mem_range.1 hu, he, hpool, hn⟩
  | ok st =>
    rw [hres] at h
    cases h

end Convert

/-! ## The claims -/

namespace Convert

/-- C1: on every successful run, the split pops exactly each retained user's
chronologically last interaction as that user's unique test pair and removes
exactly that pair from the global interaction set: the test table lists one
pair per user in index order, the training table is all distinct remapped
interaction pairs minus the per-user test pairs, and each user's post-pop
training-history length plus one equals that user's interaction count in the
input table. -/
theorem leave_one_out_split {df0 : List Row} {nNeg : Nat} {stream : Nat → Nat}
    {out : Outputs} (h : pipeline df0 nNeg stream = .ok out) :
    out.test = (testPairs df0).map (fun p => [p.1, p.2, 1]) ∧
    out.train = ((allRatings0 df0).filter fun p =>
      decide (p ∉ testPairs df0)).map (fun p => [p.1, p.2, 1]) ∧
    ∀ u, u < (originalUsers df0).length →
      (∃ rl ∈ remappedDf df0, rl.user = u ∧ rl.item = testItemFor df0 u ∧
        ∀ r ∈ remappedDf df0, r.user = u → r.ts ≤ rl.ts) ∧
      (trainHist df0 u).length + 1 = countUser df0 ((originalUsers df0).getD u 0) := by
  have hshape := pipeline_ok_shape h
  refine ⟨by rw [hshape], by rw [hshape], ?_⟩
  intro u hu
  refine ⟨testItem_chronologically_last hu, ?_⟩
  have hne : userItems df0 u ≠ [] := userItems_ne_nil hu
  have hpos : 0 < (userItems df0 u).length := List.length_pos.2 hne
  have hlen : (trainHist df0 u).length = (userItems df0 u).length - 1 := by
    rw [trainHist, List.length_dropLast]
  rw [hlen, ← length_userItems hu]
  omega

/-- C1 witness: the run on the concrete table `wDf` succeeds and its test
table is the expected single pair. -/
theorem leave_one_out_split_witness :
    pipeline wDf 3 wStream = .ok wOut ∧
    wOut.test = (testPairs wDf).map (fun p => [p.1, p.2, 1]) :=
  ⟨by decide, (@leave_one_out_split wDf 3 wStream wOut (by decide)).1⟩

/-- C2 counterexample: the claim that the held-out test item is always
eligible for the candidate pool fails on `c2Df`, whose user 0 interacted with
the popped item 18 twice: the run succeeds, the pool is non-empty, yet the
test item is excluded from it. -/
theorem neg_excludes_test_item_counterexample :
    0 < (originalUsers c2Df).length ∧
    pipeline c2Df 2 wStream = .ok c2Out ∧
    testItemFor c2Df 0 ∉ poolFor c2Df 0 ∧
    poolFor c2Df 0 ≠ [] := by
  refine ⟨by decide, by decide, by decide, by decide⟩

/-- C2 (amended): on every successful run no sampled negative of a user lies
in that user's post-pop training history; and the held-out test item is in
the candidate pool whenever it does not also occur in the post-pop history
(in particular whenever the user's interactions carry pairwise distinct
items). -/
theorem neg_samples_disjoint_from_history {df0 : List Row} {nNeg : Nat}
    {stream : Nat → Nat} {out : Outputs}
    (h : pipeline df0 nNeg stream = .ok out) :
    (∀ u, u < (originalUsers df0).length →
      ∀ x ∈ out.negRows.getD u [], x ∉ trainHist df0 u) ∧
    (∀ u, u < (originalUsers df0).length →
      testItemFor df0 u ∉ trainHist df0 u →
      testItemFor df0 u ∈ poolFor df0 u) := by
  have hshape := pipeline_ok_shape h
  constructor
  · intro u hu x hx
    rw [hshape] at hx
    simp only at hx
    rw [testNegRows_getD hu] at hx
    rcases pipeline_ok_pools h u hu with hp | hp
    · have hxp : x ∈ poolFor df0 u := mem_npChoiceList hp hx
      exact (mem_poolOf.1 hxp).2
    · subst hp
      simp [npChoiceList] at hx
  · intro u hu hnot
    have hne : userItems df0 u ≠ [] := userItems_ne_nil hu
    have hmem : testItemFor df0 u ∈ userItems df0 u := lastOf_mem hne
    have hlt : testItemFor df0 u < (originalItems df0).length :=
      mem_userItems_lt hmem
    exact mem_poolOf.2 ⟨hlt, hnot⟩

/-- C2 witness: on `wDf`, item 19 is sampled for user 0 and indeed lies
outside user 0's training history. -/
theorem neg_samples_disjoint_witness :
    pipeline wDf 3 wStream = .ok wOut ∧ 19 ∉ trainHist wDf 0 :=
  ⟨by decide, (@neg_samples_disjoint_from_history wDf 3 wStream wOut
    (by decide)).1 0 (by decide) 19 (by decide)⟩

/-- C3: on every successful run the negatives table has one row per user in
ascending user order; user `u`'s row is exactly `nNeg` draws with replacement
taken from the single generator stream at the consecutive positions
`u*nNeg, ..., u*nNeg + nNeg - 1` (so draws are consumed in ascending
user-index order with nothing skipped), each draw picking the element of the
ascending-sorted candidate pool — all item indices minus the user's post-pop
history — selected by the stream's uniform index. -/
theorem negative_sampling_stream {df0 : List Row} {nNeg : Nat}
    {stream : Nat → Nat} {out : Outputs}
    (h : pipeline df0 nNeg stream = .ok out) :
    out.negRows = testNegRows df0 nNeg stream ∧
    ∀ u, u < (originalUsers df0).length →
      out.negRows.getD u [] = ((List.range nNeg).map fun i =>
        (poolFor df0 u).getD
          (draw stream (u * nNeg + i) (poolFor df0 u).length) 0) ∧
      (out.negRows.getD u []).length = nNeg ∧
      List.Sorted (· ≤ ·) (poolFor df0 u) ∧
      (∀ x, x ∈ poolFor df0 u
        ↔ x < (originalItems df0).length ∧ x ∉ trainHist df0 u) := by
  have hshape := pipeline_ok_shape h
  have hrows : out.negRows = testNegRows df0 nNeg stream := by rw [hshape]
  refine ⟨hrows, ?_⟩
  intro u hu
  have hgetD : out.negRows.getD u []
      = npChoiceList (poolFor df0 u) nNeg stream (u * nNeg) := by
    rw [hrows, testNegRows_getD hu]
  refine ⟨hgetD, ?_, poolOf_sorted _ _, fun x => mem_poolOf⟩
  rw [hgetD, length_npChoiceList]

/-- C3 witness: the concrete run's negatives table matches the stream-indexed
characterization. -/
theorem negative_sampling_stream_witness :
    pipeline wDf 3 wStream = .ok wOut ∧ wOut.negRows = testNegRows wDf 3 wStream :=
  ⟨by decide, (@negative_sampling_stream wDf 3 wStream wOut (by decide)).1⟩

/-- C4: the pipeline is a deterministic function of the input table, the
negatives count, and the seeded generator stream: two runs on equal inputs
(streams equal pointwise) produce equal rendered bytes for all three output
files. -/
theorem pipeline_deterministic (df0 df0' : List Row) (nNeg nNeg' : Nat)
    (stream stream' : Nat → Nat) (h1 : df0 = df0') (h2 : nNeg = nNeg')
    (h3 : ∀ k, stream k = stream' k) :
    pipelineFiles df0 nNeg stream = pipelineFiles df0' nNeg' stream' := by
  subst h1
  subst h2
  rw [funext h3]

/-- C4 witness: two pointwise-equal streams written differently yield
byte-identical rendered outputs on `wDf`. -/
theorem pipeline_deterministic_witness :
    pipelineFiles wDf 3 wStreamA = pipelineFiles wDf 3 wStreamB :=
  pipeline_deterministic wDf wDf 3 3 wStreamA wStreamB rfl rfl
    (fun k => by simp [wStreamA, wStreamB, Nat.two_mul])

/-- C5: after remapping a non-empty filtered table, the user column's maximum
is `len(original_users) - 1` and the item column's maximum is
`len(original_items) - 1`, both asserts of lines 74-75 evaluate to true, and
no run on such a table ever terminates with either assert failure. -/
theorem dense_index_asserts {df0 : List Row} (hne : filterMinRatings df0 ≠ []) :
    colMax ((remappedDf df0).map Row.user)
      = some ((originalUsers df0).length - 1) ∧
    colMax ((remappedDf df0).map Row.item)
      = some ((originalItems df0).length - 1) ∧
    denseAssert ((remappedDf df0).map Row.user) (originalUsers df0).length = true ∧
    denseAssert ((remappedDf df0).map Row.item) (originalItems df0).length = true ∧
    ∀ (nNeg : Nat) (stream : Nat → Nat),
      pipeline df0 nNeg stream ≠ .error .assertUser ∧
      pipeline df0 nNeg stream ≠ .error .assertItem := by
  obtain ⟨hA, hB⟩ := denseAsserts_pass hne
  refine ⟨colMax_userCol hne, colMax_itemCol hne, hA, hB, ?_⟩
  intro nNeg stream
  constructor
  · intro hc
    obtain ⟨u, _, he, _, _⟩ := pipeline_error_nonempty_shape hne hc
    cases he
  · intro hc
    obtain ⟨u, _, he, _, _⟩ := pipeline_error_nonempty_shape hne hc
    cases he

/-- C5 witness: the asserts pass on the concrete non-empty table `wDf`. -/
theorem dense_index_asserts_witness :
    filterMinRatings wDf ≠ [] ∧
    denseAssert ((remappedDf wDf).map Row.user) (originalUsers wDf).length = true :=
  ⟨by decide, (@dense_index_asserts wDf (by decide)).2.2.1⟩

end Convert

namespace Convert

/-- C7: a table left empty by the minimum-ratings filter makes the run fail
loudly at the first max()-based dense-index assert; it never reaches the
writer, so no output (empty or otherwise) is produced. -/
theorem empty_filter_fails_assert {df0 : List Row} (nNeg : Nat)
    (stream : Nat → Nat) (hempty : filterMinRatings df0 = []) :
    pipeline df0 nNeg stream = .error .assertUser ∧
    ∀ out, pipeline df0 nNeg stream ≠ .ok out := by
  refine ⟨pipeline_empty_filter nNeg stream hempty, ?_⟩
  intro out hc
  rw [pipeline_empty_filter nNeg stream hempty] at hc
  cases hc

/-- C7 witness: the one-row table `c7Df` is emptied by the filter and the run
stops with the user-column assert failure. -/
theorem empty_filter_fails_assert_witness :
    filterMinRatings c7Df = [] ∧ pipeline c7Df 999 wStream = .error .assertUser :=
  ⟨by decide, (@empty_filter_fails_assert c7Df 999 wStream (by decide)).1⟩

/-- C8: users surviving to the outputs are exactly those with at least
`MIN_RATINGS` input rows: every user in the first-seen enumeration has at
least 20 input interactions and conversely; every training or test row of a
successful run carries a user index of a retained user, and the test table
has exactly the retained users' rows. -/
theorem min_ratings_filtering {df0 : List Row} {nNeg : Nat}
    {stream : Nat → Nat} {out : Outputs}
    (h : pipeline df0 nNeg stream = .ok out) :
    (∀ w ∈ originalUsers df0, MIN_RATINGS ≤ countUser df0 w) ∧
    (∀ r ∈ df0, MIN_RATINGS ≤ countUser df0 r.user →
      r.user ∈ originalUsers df0) ∧
    (∀ row ∈ out.train, ∃ p : Nat × Nat, p ∈ allRatings0 df0 ∧
      row = [p.1, p.2, 1] ∧ p.1 < (originalUsers df0).length ∧
      MIN_RATINGS ≤ countUser df0 ((originalUsers df0).getD p.1 0)) ∧
    (∀ row ∈ out.test, ∃ u, u < (originalUsers df0).length ∧
      row = [u, testItemFor df0 u, 1] ∧
      MIN_RATINGS ≤ countUser df0 ((originalUsers df0).getD u 0)) := by
  have hshape := pipeline_ok_shape h
  refine ⟨fun w hw => min_ratings_of_mem_originalUsers hw,
    fun r hr hc => mem_originalUsers_of_min_ratings hr hc, ?_, ?_⟩
  · intro row hrow
    rw [hshape] at hrow
    simp only at hrow
    obtain ⟨p, hp, rfl⟩ := List.mem_map.1 hrow
    have hpmem : p ∈ allRatings0 df0 := (List.mem_filter.1 hp).1
    have hbound := (mem_allRatings0_bounds hpmem).1
    exact ⟨p, hpmem, rfl, hbound,
      min_ratings_of_mem_originalUsers (getD_mem_originalUsers hbound)⟩
  · intro row hrow
    rw [hshape] at hrow
    simp only at hrow
    obtain ⟨p, hp, rfl⟩ := List.mem_map.1 hrow
    obtain ⟨u, hu, rfl⟩ := List.mem_map.1 hp
    have hult : u < (originalUsers df0).length := List.mem_range.1 hu
    exact ⟨u, hult, rfl,
      min_ratings_of_mem_originalUsers (getD_mem_originalUsers hult)⟩

/-- C8 witness: on `wDf` the retained user 0 has at least 20 interactions. -/
theorem min_ratings_filtering_witness :
    pipeline wDf 3 wStream = .ok wOut ∧ MIN_RATINGS ≤ countUser wDf 0 :=
  ⟨by decide, (@min_ratings_filtering wDf 3 wStream wOut (by decide)).1
    0 (by decide)⟩

/-- C9: the writer's three tables are header-free rows of naturals rendered
tab-separated: `test-ratings` has exactly one row `[u, test_item, 1]` per
retained user, `train-ratings` rows are `[u, i, 1]` for training interaction
pairs, and `test-negative` has exactly one row of exactly `nNeg` item indices
per retained user with no leading identifier column; the rendered file bytes
are the tab-and-newline serialization of those tables. -/
theorem writer_file_shapes {df0 : List Row} {nNeg : Nat}
    {stream : Nat → Nat} {out : Outputs}
    (h : pipeline df0 nNeg stream = .ok out) :
    out.test.length = (originalUsers df0).length ∧
    (∀ u, u < (originalUsers df0).length →
      out.test.getD u [] = [u, testItemFor df0 u, 1]) ∧
    (∀ row ∈ out.train, ∃ p : Nat × Nat, row = [p.1, p.2, 1]) ∧
    out.negRows.length = (originalUsers df0).length ∧
    (∀ row ∈ out.negRows, row.length = nNeg) ∧
    (∀ u, u < (originalUsers df0).length →
      out.negRows.getD u []
        = npChoiceList (poolFor df0 u) nNeg stream (u * nNeg)) ∧
    pipelineFiles df0 nNeg stream
      = .ok (renderFile out.train, renderFile out.test, renderFile out.negRows) := by
  have hshape := pipeline_ok_shape h
  refine ⟨?_, ?_, ?_, ?_, ?_, ?_, ?_⟩
  · rw [hshape]
    simp [testPairs]
  · intro u hu
    rw [hshape]
    simp only
    have hlen : u < ((testPairs df0).map fun p => [p.1, p.2, 1]).length := by
      simpa [testPairs] using hu
    rw [List.getD_eq_getElem _ _ hlen]
    simp [testPairs]
  · intro row hrow
    rw [hshape] at hrow
    simp only at hrow
    obtain ⟨p, _, rfl⟩ := List.mem_map.1 hrow
    exact ⟨p, rfl⟩
  · rw [hshape]
    simp [testNegRows]
  · intro row hrow
    rw [hshape] at hrow
    simp only at hrow
    obtain ⟨u, _, rfl⟩ := List.mem_map.1 hrow
    exact length_npChoiceList _ _ _ _
  · intro u hu
    rw [hshape]
    simp only
    exact testNegRows_getD hu
  · rw [pipelineFiles, h]
    rfl

/-- C9 witness: the concrete run's test table has one row per retained
user. -/
theorem writer_file_shapes_witness :
    pipeline wDf 3 wStream = .ok wOut ∧
    wOut.test.length = (originalUsers wDf).length :=
  ⟨by decide, (@writer_file_shapes wDf 3 wStream wOut (by decide)).1⟩

/-- C10 counterexample: the loop is not total over every filtered, remapped
input: on `c10Df` (one retained user whose post-pop history covers the whole
item catalog) the run aborts inside the loop with the empty-candidate-pool
raise of `np.random.choice`. -/
theorem split_loop_counterexample :
    MIN_RATINGS ≤ countUser c10Df 0 ∧
    filterMinRatings c10Df ≠ [] ∧
    pipeline c10Df 2 wStream = .error (.emptyPool 0) := by
  refine ⟨by decide, by decide, by decide⟩

/-- C10 (amended): for every input, the per-user `list.pop` and the
`set.remove` of the split loop never raise — the loop can only abort through
`np.random.choice` on an empty candidate pool — and the loop is total
whenever every retained user's candidate pool is non-empty (or no negatives
are requested). -/
theorem split_loop_pop_remove_safe (df0 : List Row) (nNeg : Nat)
    (stream : Nat → Nat) :
    (∀ u, pipeline df0 nNeg stream ≠ .error (.popEmpty u) ∧
      pipeline df0 nNeg stream ≠ .error (.removeMissing u)) ∧
    (filterMinRatings df0 ≠ [] →
      (∀ u, u < (originalUsers df0).length → poolFor df0 u ≠ [] ∨ nNeg = 0) →
      ∃ out, pipeline df0 nNeg stream = .ok out) := by
  constructor
  · intro u
    constructor
    · intro hc
      rcases pipeline_error_shape hc with he | he | ⟨v, _, he, _, _⟩ <;>
        exact PipeError.noConfusion he
    · intro hc
      rcases pipeline_error_shape hc with he | he | ⟨v, _, he, _, _⟩ <;>
        exact PipeError.noConfusion he
  · intro hne h3
    exact pipeline_total stream hne h3

/-- C10 witness: on `wDf` the pops and removes cannot raise and the run
completes. -/
theorem split_loop_pop_remove_safe_witness :
    pipeline wDf 3 wStream ≠ .error (.popEmpty 0) ∧
    ∃ out, pipeline wDf 3 wStream = .ok out :=
  ⟨((split_loop_pop_remove_safe wDf 3 wStream).1 0).1,
    (split_loop_pop_remove_safe wDf 3 wStream).2 (by decide) (by decide)⟩

end Convert
